import Mathlib

/-!
Verification of the retrieval-and-grounding engine of a small RAG
application (`web/lib/rag.ts` and the chat route handler).

JavaScript strings are modelled as `List Char` (`Str`); JavaScript numbers
used for similarity scores are modelled as `ℚ`; the 32-bit unsigned hash is
modelled with explicit `% 2^32`.  `Math.sqrt` is an external numeric
primitive and is passed in as a parameter `sqrt : ℚ → ℚ`.  External
collaborators (the document directory, the embedding provider, the chat
providers) are modelled as oracle fields of an environment record, and the
provider calls a run performs are recorded in an explicit event trace.
The `chunkText` loop of the source is not structurally terminating (and in
fact does not terminate on some inputs), so it is embedded with explicit
fuel, returning `none` when the fuel is exhausted.
-/

abbrev Str := List Char

/-- JavaScript `String.prototype.trim`: drop whitespace from both ends. -/
def trimStr (s : Str) : Str :=
  ((s.dropWhile Char.isWhitespace).reverse.dropWhile Char.isWhitespace).reverse

/-- JavaScript `text.slice(start, end)` for `0 ≤ start ≤ end`. -/
def sliceStr (s : Str) (a b : Nat) : Str :=
  (s.drop a).take (b - a)

/-- JavaScript `haystack.includes(needle)` for list-modelled strings. -/
def hasInfix (s pat : Str) : Bool :=
  match s with
  | [] => pat.isEmpty
  | _ :: t => pat.isPrefixOf s || hasInfix t pat

/-- Greatest index of `' '` in `s` (JavaScript `lastIndexOf(" ")`), `none`
when there is no space. -/
def lastSpaceIdx : Str → Option Nat
  | [] => none
  | c :: t =>
    match lastSpaceIdx t with
    | some j => some (j + 1)
    | none => if c = ' ' then some 0 else none

/-- Sentence-ending punctuation recognised by the chunker (`[.!?]`). -/
def isSentencePunct (c : Char) : Bool :=
  c = '.' || c = '!' || c = '?'

/-- End position (index just past the matched two characters) of the last
match of `/[.!?]\s/` in `s`, or `none`.  The last match of the left-to-right
non-overlapping regex scan is the greatest index at which the two-character
pattern occurs, because the character classes `[.!?]` and `\s` are disjoint. -/
def lastBoundaryEnd (s : Str) : Option Nat :=
  go s 0
where
  go : Str → Nat → Option Nat
    | c1 :: c2 :: rest, i =>
      match go (c2 :: rest) (i + 1) with
      | some j => some j
      | none => if isSentencePunct c1 && c2.isWhitespace then some (i + 2) else none
    | _, _ => none

def CHUNK_SIZE : Nat := 512
def CHUNK_OVERLAP : Nat := 50

/-- `findSentenceBoundary(text, start, end)` from `rag.ts`.  The JS guard
`lastBoundary > CHUNK_SIZE * 0.6` compares an integer with `307.19…`, so on
naturals it is `307 < lastBoundary`. -/
def findSentenceBoundary (text : Str) (start endPos : Nat) : Nat :=
  let window := sliceStr text start endPos
  let fallback :=
    match lastSpaceIdx window with
    | some lastSpace => if 10 < lastSpace then start + lastSpace else endPos
    | none => endPos
  match lastBoundaryEnd window with
  | some lastBoundary => if 307 < lastBoundary then start + lastBoundary else fallback
  | none => fallback

/-- The body of the `while` loop of `chunkText`, with fuel.  Returns `none`
when the fuel runs out before the loop exits.  `Math.max(0, end - 50)` is
truncated subtraction on `Nat`. -/
def chunkGo (text : Str) : Nat → Nat → List Str → Option (List Str)
  | 0, _, _ => none
  | fuel + 1, start, chunks =>
    if start < text.length then
      let e0 := min (start + CHUNK_SIZE) text.length
      let e1 := if e0 < text.length then findSentenceBoundary text start e0 else e0
      let chunk := trimStr (sliceStr text start e1)
      let chunks' := if chunk.isEmpty then chunks else chunks ++ [chunk]
      if text.length ≤ e1 then some chunks'
      else chunkGo text fuel (e1 - CHUNK_OVERLAP) chunks'
    else some chunks

/-- `chunkText` from `rag.ts` (fuelled). -/
def chunkText (text : Str) (fuel : Nat) : Option (List Str) :=
  if text.isEmpty then some [] else chunkGo text fuel 0 []

/-- The same loop as `chunkGo`, recording the untrimmed window `(start, end)`
pairs instead of the trimmed chunks (verification device for the
reconstruction property). -/
def spanGo (text : Str) : Nat → Nat → List (Nat × Nat) → Option (List (Nat × Nat))
  | 0, _, _ => none
  | fuel + 1, start, spans =>
    if start < text.length then
      let e0 := min (start + CHUNK_SIZE) text.length
      let e1 := if e0 < text.length then findSentenceBoundary text start e0 else e0
      let spans' := spans ++ [(start, e1)]
      if text.length ≤ e1 then some spans'
      else spanGo text fuel (e1 - CHUNK_OVERLAP) spans'
    else some spans

/-- Window spans underlying `chunkText` (fuelled). -/
def chunkSpans (text : Str) (fuel : Nat) : Option (List (Nat × Nat)) :=
  if text.isEmpty then some [] else spanGo text fuel 0 []

/-! ### Data model (`rag.ts` types) -/

structure ChunkMetadata where
  source : Str
  policyType : Str
  «section» : Str
deriving DecidableEq, Repr

structure IndexedChunk where
  content : Str
  embedding : List ℚ
  metadata : ChunkMetadata
deriving DecidableEq, Repr

structure RetrievedChunk where
  content : Str
  metadata : ChunkMetadata
  distance : ℚ
deriving DecidableEq, Repr

/-- The anonymous `{ ...chunk, distance }` record built inside `retrieve`. -/
structure ScoredChunk where
  content : Str
  embedding : List ℚ
  metadata : ChunkMetadata
  distance : ℚ
deriving DecidableEq, Repr

structure Doc where
  filename : Str
  text : Str
deriving DecidableEq, Repr

structure Section where
  title : Str
  body : Str
deriving DecidableEq, Repr

/-! ### `cosineSimilarity` -/

/-- The single accumulation loop of `cosineSimilarity`: `(dot, normA, normB)`
summed for `i` below `a.length`, JS out-of-range reads modelled by the
default `0`. -/
def cosineLoop (a b : List ℚ) : ℚ × ℚ × ℚ :=
  (List.range a.length).foldl
    (fun acc i =>
      (acc.1 + a.getD i 0 * b.getD i 0,
       acc.2.1 + a.getD i 0 * a.getD i 0,
       acc.2.2 + b.getD i 0 * b.getD i 0))
    (0, 0, 0)

/-- `cosineSimilarity` from `rag.ts`; `sqrt` stands for the external
`Math.sqrt` primitive.  JS `!normA || !normB` on non-NaN numbers is the
zero test. -/
def cosineSimilarity (sqrt : ℚ → ℚ) (a b : List ℚ) : ℚ :=
  let acc := cosineLoop a b
  if acc.2.1 = 0 ∨ acc.2.2 = 0 then 0
  else acc.1 / (sqrt acc.2.1 * sqrt acc.2.2)

/-! ### `hashDocs` -/

/-- `hashDocs` from `rag.ts`: a 32-bit rolling hash of
`"filename:length"` entries joined by `"|"`, rendered in decimal.
`(hash * 31 + code) >>> 0` is exact in doubles (the intermediate stays far
below `2^53`), so it is `% 2^32` on naturals. -/
def hashDocs (docs : List Doc) : Str :=
  let content :=
    List.intercalate "|".data
      (docs.map (fun d => d.filename ++ ':' :: (Nat.repr d.text.length).data))
  let h := content.foldl (fun h c => (h * 31 + c.toNat) % 4294967296) 0
  (Nat.repr h).data

/-! ### `splitIntoSections` and `extractPolicyType` -/

/-- JavaScript `text.split(/\r?\n/)`. -/
def splitLines : Str → List Str
  | [] => [[]]
  | '\r' :: '\n' :: rest => [] :: splitLines rest
  | '\n' :: rest => [] :: splitLines rest
  | c :: rest =>
    match splitLines rest with
    | [] => [[c]]
    | l :: ls => (c :: l) :: ls

/-- Header test of `splitIntoSections`, applied to the trimmed line:
starts with `##`, or is only `[A-Z\s]` with length in `[3,80]`, or ends
with `:` with length at most 80. -/
def isHeaderLine (line : Str) : Bool :=
  "##".data.isPrefixOf line ||
  (line.all (fun c => ('A' ≤ c && c ≤ 'Z') || c.isWhitespace) &&
     decide (3 ≤ line.length) && decide (line.length ≤ 80)) ||
  (line.getLast? = some ':' && decide (line.length ≤ 80))

/-- `line.replace(/^#+/, "").trim() || "General"`. -/
def headerTitle (line : Str) : Str :=
  let t := trimStr (line.dropWhile (· = '#'))
  if t.isEmpty then "General".data else t

/-- `flush` helper of `splitIntoSections`: push the buffered body lines
under the current title when the buffer is nonempty. -/
def flushSection (secs : List (Str × List Str)) (title : Str) (buffer : List Str) :
    List (Str × List Str) :=
  if buffer.isEmpty then secs else secs ++ [(title, buffer)]

/-- `splitIntoSections` from `rag.ts`. -/
def splitIntoSections (text : Str) : List Section :=
  let lines := splitLines text
  let st :=
    lines.foldl
      (fun (st : List (Str × List Str) × Str × List Str) rawLine =>
        let (secs, currentTitle, buffer) := st
        let line := trimStr rawLine
        if line.isEmpty then (secs, currentTitle, buffer ++ [[]])
        else if isHeaderLine line then
          (flushSection secs currentTitle buffer, headerTitle line, [])
        else (secs, currentTitle, buffer ++ [rawLine]))
      ([], "General".data, [])
  let secs := flushSection st.1 st.2.1 st.2.2
  (secs.map (fun s => Section.mk s.1 (trimStr (List.intercalate "\n".data s.2)))).filter
    (fun s => !s.body.isEmpty)

/-- Replace the first occurrence of `pat` (JavaScript
`String.prototype.replace` with a string pattern). -/
def replaceFirst (pat rep : Str) : Str → Str
  | [] => if pat.isEmpty then rep else []
  | c :: t =>
    if pat.isPrefixOf (c :: t) then rep ++ (c :: t).drop pat.length
    else c :: replaceFirst pat rep t

/-- JavaScript `\w` word characters. -/
def isWordChar (c : Char) : Bool :=
  ('a' ≤ c && c ≤ 'z') || ('A' ≤ c && c ≤ 'Z') || ('0' ≤ c && c ≤ '9') || c = '_'

/-- `replace(/\b\w/g, m => m.toUpperCase())`: uppercase each word character
that is not preceded by a word character. -/
def upperWordStarts : Bool → Str → Str
  | _, [] => []
  | prevWord, c :: t =>
    (if isWordChar c && !prevWord then c.toUpper else c) :: upperWordStarts (isWordChar c) t

/-- `extractPolicyType` from `rag.ts`. -/
def extractPolicyType (filename : Str) : Str :=
  let base := replaceFirst ".txt".data [] (replaceFirst "_policy".data [] filename)
  upperWordStarts false (trimStr (base.map (fun c => if c = '_' then ' ' else c)))

/-! ### Environment, event trace, `embedTexts`, `getIndex`, `retrieve` -/

/-- One provider call in the trace of a run. -/
inductive RagEvent where
  | indexAccess : RagEvent
  | embedRequest (texts : List Str) : RagEvent
deriving DecidableEq, Repr

/-- External collaborators: the document directory, the embedding provider
(batched: one response per request batch), and `Math.sqrt`. -/
structure RagEnv where
  docs : List Doc
  embedBatch : List Str → List (List ℚ)
  sqrt : ℚ → ℚ

/-- The module-level mutable cache of `rag.ts`
(`cachedIndex`, `cachedDocsHash`). -/
structure CacheState where
  cachedIndex : Option (List IndexedChunk)
  cachedDocsHash : Option Str
deriving DecidableEq, Repr

/-- Structural helper for `toBatches`: the fuel only bounds the number of
batches and is instantiated with the list length, which always suffices. -/
def toBatchesGo : Nat → List Str → List (List Str)
  | 0, _ => []
  | _ + 1, [] => []
  | fuel + 1, t :: ts => ((t :: ts).take 64) :: toBatchesGo fuel ((t :: ts).drop 64)

/-- The batching loop of `embedTexts` (`batchSize = 64`). -/
def toBatches (texts : List Str) : List (List Str) :=
  toBatchesGo texts.length texts

/-- `embedTexts` from `rag.ts`: one provider request per batch of 64,
responses concatenated in order; the trace records each provider request. -/
def embedTexts (env : RagEnv) (texts : List Str) : List (List ℚ) × List RagEvent :=
  let bs := toBatches texts
  ((bs.map env.embedBatch).flatten, bs.map RagEvent.embedRequest)

/-- The `(content, metadata)` pairs built by the chunking loop of
`getIndex`, before embedding. -/
structure PreChunk where
  content : Str
  metadata : ChunkMetadata
deriving DecidableEq, Repr

/-- The chunks of one document inside `getIndex` (fuelled through
`chunkText`). -/
def chunksOfDoc (fuel : Nat) (d : Doc) : Option (List PreChunk) :=
  let policyType := extractPolicyType d.filename
  ((splitIntoSections d.text).mapM
      (fun sec =>
        (chunkText sec.body fuel).map
          (fun cs => cs.map (fun content =>
            PreChunk.mk content (ChunkMetadata.mk d.filename policyType sec.title))))).map
    List.flatten

/-- All `(content, metadata)` chunks of the corpus, in document order. -/
def buildChunks (fuel : Nat) (docs : List Doc) : Option (List PreChunk) :=
  (docs.mapM (chunksOfDoc fuel)).map List.flatten

/-- The rebuild arm of `getIndex`: chunk every document, embed all chunk
contents, zip the embeddings back positionally, replace the cache. -/
def rebuildIndex (env : RagEnv) (fuel : Nat) (docsHash : Str) :
    Option (List IndexedChunk × CacheState × List RagEvent) :=
  (buildChunks fuel env.docs).map (fun chunks =>
    let (embeddings, ev) := embedTexts env (chunks.map (·.content))
    let idx := chunks.enum.map (fun p =>
      IndexedChunk.mk p.2.content (embeddings.getD p.1 []) p.2.metadata)
    (idx, CacheState.mk (some idx) (some docsHash), ev))

/-- `getIndex` from `rag.ts`.  The `indexAccess` event marks the call
itself; embedding-provider requests appear as `embedRequest` events. -/
def getIndex (env : RagEnv) (fuel : Nat) (st : CacheState) :
    Option (List IndexedChunk × CacheState × List RagEvent) :=
  let docsHash := hashDocs env.docs
  match st.cachedIndex with
  | some idx =>
    if st.cachedDocsHash = some docsHash then some (idx, st, [RagEvent.indexAccess])
    else (rebuildIndex env fuel docsHash).map
      (fun r => (r.1, r.2.1, RagEvent.indexAccess :: r.2.2))
  | none => (rebuildIndex env fuel docsHash).map
      (fun r => (r.1, r.2.1, RagEvent.indexAccess :: r.2.2))

/-- The scoring map of `retrieve`: distance is `1 - cosineSimilarity`. -/
def scoreChunks (sqrt : ℚ → ℚ) (queryEmbedding : List ℚ) (index : List IndexedChunk) :
    List ScoredChunk :=
  index.map (fun chunk =>
    ScoredChunk.mk chunk.content chunk.embedding chunk.metadata
      (1 - cosineSimilarity sqrt queryEmbedding chunk.embedding))

def DISTANCE_THRESHOLD : ℚ := 4/5

/-- The sort comparator of `retrieve` (`(a, b) => a.distance - b.distance`
under a stable sort: ascending by distance). -/
def distLE (a b : ScoredChunk) : Bool := a.distance ≤ b.distance

/-- `retrieve` from `rag.ts`.  The JS `sort((a, b) => a.distance - b.distance)`
is a stable ascending sort by distance, modelled by `List.mergeSort`. -/
def retrieve (env : RagEnv) (fuel : Nat) (st : CacheState) (query : Str) (topK : Nat) :
    Option (List RetrievedChunk × CacheState × List RagEvent) :=
  if (trimStr query).isEmpty then some ([], st, [])
  else
    (getIndex env fuel st).bind (fun r =>
      let index := r.1
      let st' := r.2.1
      let ev1 := r.2.2
      if index.isEmpty then some ([], st', ev1)
      else
        let q := embedTexts env [query]
        let queryEmbedding := q.1.getD 0 []
        let scored := scoreChunks env.sqrt queryEmbedding index
        let sorted := scored.mergeSort distLE
        let top := sorted.take topK
        match top with
        | [] => some ([], st', ev1 ++ q.2)
        | t :: _ =>
          if DISTANCE_THRESHOLD < t.distance then some ([], st', ev1 ++ q.2)
          else
            some (top.map (fun i => RetrievedChunk.mk i.content i.metadata i.distance),
              st', ev1 ++ q.2))

/-! ### `estimateConfidence` -/

inductive Confidence where
  | High | Medium | Low
deriving DecidableEq, Repr

/-- `estimateConfidence` from `rag.ts`; `0.35 = 7/20`, `0.55 = 11/20`. -/
def estimateConfidence (distance : ℚ) : Confidence :=
  if distance < 7/20 then .High
  else if distance < 11/20 then .Medium
  else .Low

/-! ### Chat route: provider failover and response parsing -/

/-- `is429` from the chat route: the stringified error contains `"429"` or
`"quota"`. -/
def is429 (msg : Str) : Bool :=
  hasInfix msg "429".data || hasInfix msg "quota".data

/-- Outcome of calling one configured chat provider. -/
inductive ProviderOutcome where
  | ok (text : Str) : ProviderOutcome
  | fail (msg : Str) : ProviderOutcome
deriving DecidableEq, Repr

/-- The provider loop of the route's `POST` handler over the ordered
`getChatConfigs()` list: use the first success; on a non-`is429` error
rethrow at once; on an `is429` error rethrow only when this was the last
configured provider, otherwise advance.  An empty list leaves `text = ""`. -/
def runChatFailover : List ProviderOutcome → Except Str Str
  | [] => .ok []
  | o :: rest =>
    match o with
    | .ok t => .ok t
    | .fail e =>
      if is429 e then
        if rest.isEmpty then .error e else runChatFailover rest
      else .error e

/-- First occurrence split: `splitFirst pat s = some (a, b)` when
`s = a ++ pat ++ b` with `a` the shortest such prefix. -/
def splitFirst (pat : Str) : Str → Option (Str × Str)
  | [] => if pat.isEmpty then some ([], []) else none
  | c :: t =>
    if pat.isPrefixOf (c :: t) then some ([], (c :: t).drop pat.length)
    else (splitFirst pat t).map (fun p => (c :: p.1, p.2))

/-- The `extract` closure of `parseResponse`: the first
`/<tag>([\s\S]*?)<\/tag>/` match's group, trimmed, else `""`.  The regex
matches at the first `<tag>` occurrence followed (anywhere later) by
`</tag>`, with the group ending at the first such close. -/
def extractTag (tag : Str) (text : Str) : Str :=
  match splitFirst ('<' :: tag ++ ">".data) text with
  | none => []
  | some r =>
    match splitFirst ('<' :: '/' :: tag ++ ">".data) r.2 with
    | none => []
    | some rr => trimStr rr.1

structure ParsedResponse where
  answer : Str
  sources : Str
  confidence : Str
deriving DecidableEq, Repr

/-- JavaScript `a || b` on strings: the empty string is falsy. -/
def orStr (a b : Str) : Str :=
  if a.isEmpty then b else a

/-- `parseResponse` from the chat route. -/
def parseResponse (text : Str) : ParsedResponse :=
  { answer := orStr (extractTag "answer".data text) (trimStr text)
    sources := extractTag "sources".data text
    confidence := extractTag "confidence".data text }

/-! ### Reconstruction functions and concrete verification inputs -/

/-- The spec's reading of "concatenating the chunks with the 50-character
overlapped regions removed": keep the first chunk whole and drop the first
50 characters of every later chunk. -/
def specReconstruct (chunks : List Str) : Str :=
  match chunks with
  | [] => []
  | c :: rest => c ++ (rest.map (fun d => d.drop CHUNK_OVERLAP)).flatten

/-- Concatenate the untrimmed window slices after the first, each with the
region overlapping the previous window (`prevEnd - start` characters)
removed. -/
def reconTail (text : Str) (prevEnd : Nat) : List (Nat × Nat) → Str
  | [] => []
  | q :: rest => (sliceStr text q.1 q.2).drop (prevEnd - q.1) ++ reconTail text q.2 rest

/-- Concatenation of the untrimmed window slices with overlaps removed. -/
def reconSlices (text : Str) (spans : List (Nat × Nat)) : Str :=
  match spans with
  | [] => []
  | p :: rest => sliceStr text p.1 p.2 ++ reconTail text p.2 rest

/-- An input on which the `chunkText` loop never advances: the first
512-character window has no sentence boundary and its last space is at
index 11, so `end = 11` and the next start is `max(0, 11 - 50) = 0`
again. -/
def loopText : Str := List.replicate 11 'a' ++ ' ' :: List.replicate 600 'b'

/-- The first chunk `chunkText` pushes (forever) on `loopText`. -/
def loopChunk : Str := List.replicate 11 'a'

/-- A 600-character input whose leading space is lost to trimming: the
chunker cuts it into windows `[0, 512)` and `[462, 600)`. -/
def c2Text : Str := ' ' :: List.replicate 599 'a'

def c2Chunks : List Str := [List.replicate 511 'a', List.replicate 138 'a']

/-- Metadata of the retrieval witness index. -/
def metaW : ChunkMetadata := ChunkMetadata.mk "f.txt".data "F".data "General".data

/-- A two-chunk index with opposite unit embeddings. -/
def idxW : List IndexedChunk :=
  [IndexedChunk.mk "x".data [1] metaW, IndexedChunk.mk "y".data [-1] metaW]

/-- Environment for the retrieval witnesses. -/
def envW : RagEnv := RagEnv.mk [] (fun _ => [[1]]) id

/-- Cache state already holding `idxW` under the fingerprint of the empty
corpus. -/
def stW : CacheState := CacheState.mk (some idxW) (some "0".data)

/-- A one-chunk index for the ranking witness. -/
def idxW1 : List IndexedChunk := [IndexedChunk.mk "x".data [1] metaW]

/-- Cache state already holding `idxW1` under the fingerprint of the empty
corpus. -/
def stW1 : CacheState := CacheState.mk (some idxW1) (some "0".data)

/-- Scored form of `idxW1` against the query embedding `[1]`. -/
def scoredW : List ScoredChunk := [ScoredChunk.mk "x".data [1] metaW 0]

/-- Retrieval result on `idxW1`. -/
def resW : List RetrievedChunk := [RetrievedChunk.mk "x".data metaW 0]

/-- One-document corpus for the index-cache witness. -/
def envC5 : RagEnv :=
  RagEnv.mk [Doc.mk "leave_policy.txt".data "Hello.".data]
    (fun ts => ts.map (fun _ => [1])) id

/-- The index built from `envC5`. -/
def idxC5 : List IndexedChunk :=
  [IndexedChunk.mk "Hello.".data [1]
    (ChunkMetadata.mk "leave_policy.txt".data "Leave".data "General".data)]

/-- The cache state after the first `getIndex` call on `envC5`. -/
def stC5 : CacheState := CacheState.mk (some idxC5) (some "2433175160".data)

/-! ### Helper lemmas on the string primitives -/

theorem trimStr_eq_rdrop (s : Str) :
    trimStr s =
      List.rdropWhile Char.isWhitespace (List.dropWhile Char.isWhitespace s) := rfl

theorem trimStr_idem (s : Str) : trimStr (trimStr s) = trimStr s := by
  rw [trimStr_eq_rdrop, trimStr_eq_rdrop]
  have h1 : List.dropWhile Char.isWhitespace
      (List.rdropWhile Char.isWhitespace (List.dropWhile Char.isWhitespace s)) =
      List.rdropWhile Char.isWhitespace (List.dropWhile Char.isWhitespace s) := by
    rw [List.dropWhile_eq_self_iff]
    intro hl
    have hpre := List.rdropWhile_prefix Char.isWhitespace
      (List.dropWhile Char.isWhitespace s)
    have hlen : 0 < (List.dropWhile Char.isWhitespace s).length :=
      lt_of_lt_of_le hl hpre.length_le
    have hg := List.dropWhile_get_zero_not (p := Char.isWhitespace) s hlen
    have he := hpre.getElem (n := 0) hl
    simpa [List.get_eq_getElem, he] using hg
  rw [h1, List.rdropWhile_idempotent]

theorem trimStr_length_le (s : Str) : (trimStr s).length ≤ s.length := by
  rw [trimStr_eq_rdrop]
  have h1 := (List.rdropWhile_prefix Char.isWhitespace
    (List.dropWhile Char.isWhitespace s)).length_le
  have h2 := (List.dropWhile_sublist (l := s) Char.isWhitespace).length_le
  omega

theorem trimStr_eq_nil_ws (s : Str) (h : trimStr s = []) :
    ∀ c ∈ s, c.isWhitespace := by
  rw [trimStr_eq_rdrop] at h
  have h2 := List.rdropWhile_eq_nil_iff.mp h
  intro c hc
  rw [← List.takeWhile_append_dropWhile (p := Char.isWhitespace) (l := s)] at hc
  rcases List.mem_append.mp hc with h3 | h3
  · exact List.mem_takeWhile_imp h3
  · exact h2 c h3

theorem splitFirst_eq (pat : Str) :
    ∀ (s a b : Str), splitFirst pat s = some (a, b) → s = a ++ pat ++ b := by
  intro s
  induction s with
  | nil =>
    intro a b h
    simp only [splitFirst] at h
    split at h
    · rename_i hp
      simp only [Option.some.injEq, Prod.mk.injEq] at h
      obtain ⟨rfl, rfl⟩ := h
      simp [List.isEmpty_iff.mp hp]
    · exact absurd h (by simp)
  | cons c t ih =>
    intro a b h
    simp only [splitFirst] at h
    split at h
    · rename_i hpre
      simp only [Option.some.injEq, Prod.mk.injEq] at h
      obtain ⟨rfl, rfl⟩ := h
      obtain ⟨u, hu⟩ := List.isPrefixOf_iff_prefix.mp hpre
      calc c :: t = pat ++ u := hu.symm
        _ = [] ++ pat ++ (pat ++ u).drop pat.length := by
            rw [List.drop_left]; simp
        _ = [] ++ pat ++ (c :: t).drop pat.length := by rw [hu]
    · rename_i hpre
      rcases Option.map_eq_some'.mp h with ⟨p, hp, hab⟩
      injection hab with h1 h2
      subst h1
      subst h2
      have := ih p.1 p.2 (by rw [hp])
      simp [this]

/-! ### C8: confidence thresholds -/

/-- C8: `estimateConfidence` maps `distance < 0.35` to `High`,
`distance < 0.55` (and not `< 0.35`) to `Medium`, everything else to `Low`;
`0.2 ↦ High`, `0.4 ↦ Medium`, `0.6 ↦ Low`, and the boundary values `0.35`
and `0.55` fall on the lower-confidence side. -/
theorem estimateConfidence_spec :
    (∀ d : ℚ, d < 7/20 → estimateConfidence d = .High)
    ∧ (∀ d : ℚ, ¬ d < 7/20 → d < 11/20 → estimateConfidence d = .Medium)
    ∧ (∀ d : ℚ, ¬ d < 11/20 → estimateConfidence d = .Low)
    ∧ estimateConfidence (2/10) = .High
    ∧ estimateConfidence (4/10) = .Medium
    ∧ estimateConfidence (6/10) = .Low
    ∧ estimateConfidence (35/100) = .Medium
    ∧ estimateConfidence (55/100) = .Low := by
  refine ⟨?_, ?_, ?_, by norm_num [estimateConfidence], by norm_num [estimateConfidence],
    by norm_num [estimateConfidence], by norm_num [estimateConfidence],
    by norm_num [estimateConfidence]⟩
  · intro d h
    simp [estimateConfidence, h]
  · intro d h1 h2
    simp [estimateConfidence, h1, h2]
  · intro d h
    have h7 : ¬ d < 7/20 := fun hc => h (hc.trans (by norm_num))
    simp [estimateConfidence, h, h7]

/-- Witness for C8 at concrete distances on each side of the thresholds. -/
theorem estimateConfidence_spec_witness :
    estimateConfidence (1/10) = .High
    ∧ estimateConfidence (9/20) = .Medium
    ∧ estimateConfidence (3/5) = .Low :=
  ⟨estimateConfidence_spec.1 (1/10) (by norm_num),
   estimateConfidence_spec.2.1 (9/20) (by norm_num) (by norm_num),
   estimateConfidence_spec.2.2.1 (3/5) (by norm_num)⟩

/-! ### C9: cosine similarity never divides by zero -/

theorem cosineLoop_normA_zero (a b : List ℚ) (h : ∀ x ∈ a, x = 0) :
    (cosineLoop a b).2.1 = 0 := by
  have key : ∀ (l : List Nat) (acc : ℚ × ℚ × ℚ), (∀ i ∈ l, a.getD i 0 = 0) →
      (l.foldl
        (fun acc i =>
          (acc.1 + a.getD i 0 * b.getD i 0,
           acc.2.1 + a.getD i 0 * a.getD i 0,
           acc.2.2 + b.getD i 0 * b.getD i 0)) acc).2.1 = acc.2.1 := by
    intro l
    induction l with
    | nil => intro acc _; rfl
    | cons i t ih =>
      intro acc hz
      have hi : a.getD i 0 = 0 := hz i (by simp)
      simp only [List.foldl_cons]
      rw [ih _ (fun j hj => hz j (by simp [hj]))]
      rw [hi]
      simp
  have hz : ∀ i ∈ List.range a.length, a.getD i 0 = 0 := by
    intro i hi
    have hlt : i < a.length := List.mem_range.mp hi
    rw [List.getD_eq_getElem _ _ hlt]
    exact h _ (List.getElem_mem hlt)
  exact key _ _ hz

/-- C9: `cosineSimilarity` returns `0` whenever either accumulated norm is
zero (in particular for an all-zero vector) and takes the division branch
only when both norms are nonzero. -/
theorem cosineSimilarity_safe (sqrt : ℚ → ℚ) (a b : List ℚ) :
    ((cosineLoop a b).2.1 = 0 ∨ (cosineLoop a b).2.2 = 0 →
      cosineSimilarity sqrt a b = 0)
    ∧ ((cosineLoop a b).2.1 ≠ 0 → (cosineLoop a b).2.2 ≠ 0 →
      cosineSimilarity sqrt a b =
        (cosineLoop a b).1 / (sqrt (cosineLoop a b).2.1 * sqrt (cosineLoop a b).2.2))
    ∧ ((∀ x ∈ a, x = 0) → cosineSimilarity sqrt a b = 0) := by
  refine ⟨fun h => ?_, fun h1 h2 => ?_, fun h => ?_⟩
  · simp only [cosineSimilarity]
    rw [if_pos h]
  · simp only [cosineSimilarity]
    rw [if_neg (by tauto)]
  · simp only [cosineSimilarity]
    rw [if_pos (Or.inl (cosineLoop_normA_zero a b h))]

/-- Witness for C9: a zero vector yields similarity `0`; nonzero norms
reach the quotient. -/
theorem cosineSimilarity_safe_witness :
    cosineSimilarity id [0, 0] [5, 6] = 0
    ∧ cosineSimilarity id [1] [2] =
        (cosineLoop [1] [2]).1 / (id (cosineLoop [1] [2]).2.1 * id (cosineLoop [1] [2]).2.2) :=
  ⟨(cosineSimilarity_safe id [0, 0] [5, 6]).2.2 (by norm_num),
   (cosineSimilarity_safe id [1] [2]).2.1
     (by norm_num [cosineLoop, List.range_succ])
     (by norm_num [cosineLoop, List.range_succ])⟩

/-! ### C3: generation provider failover -/

/-- C3: the provider loop uses exactly the first successful response
(earlier providers having failed with quota-class errors), aborts at once
on any non-quota error regardless of remaining providers, and fails overall
when the last provider also fails with a quota error. -/
theorem chatFailover_policy (pre rest : List ProviderOutcome) (t e : Str)
    (hpre : ∀ r ∈ pre, ∃ m, r = ProviderOutcome.fail m ∧ is429 m = true) :
    runChatFailover (pre ++ ProviderOutcome.ok t :: rest) = .ok t
    ∧ (is429 e = false →
        runChatFailover (pre ++ ProviderOutcome.fail e :: rest) = .error e)
    ∧ (is429 e = true →
        runChatFailover (pre ++ [ProviderOutcome.fail e]) = .error e) := by
  induction pre with
  | nil =>
    refine ⟨rfl, fun he => ?_, fun he => ?_⟩
    · simp [runChatFailover, he]
    · simp [runChatFailover, he]
  | cons r pre' ih =>
    obtain ⟨m, rfl, hm⟩ := hpre r (by simp)
    have ih' := ih (fun x hx => hpre x (by simp [hx]))
    refine ⟨?_, fun he => ?_, fun he => ?_⟩
    · simp only [List.cons_append, runChatFailover, hm, if_true]
      rw [if_neg (by simp)]
      exact ih'.1
    · simp only [List.cons_append, runChatFailover, hm, if_true]
      rw [if_neg (by simp)]
      exact ih'.2.1 he
    · simp only [List.cons_append, runChatFailover, hm, if_true]
      rw [if_neg (by simp)]
      exact ih'.2.2 he

/-- Witness for C3: a quota failure advances to the next provider, a
connection failure aborts immediately, and a trailing quota failure fails
the whole call. -/
theorem chatFailover_policy_witness :
    runChatFailover
        [ProviderOutcome.fail "Error 429 rate limit".data,
         ProviderOutcome.ok "answer text".data] = .ok "answer text".data
    ∧ runChatFailover
        [ProviderOutcome.fail "Error 429 rate limit".data,
         ProviderOutcome.fail "ECONNREFUSED".data,
         ProviderOutcome.ok "never used".data] = .error "ECONNREFUSED".data
    ∧ runChatFailover
        [ProviderOutcome.fail "Error 429 rate limit".data,
         ProviderOutcome.fail "insufficient quota".data] =
      .error "insufficient quota".data := by
  have hpre : ∀ r ∈ [ProviderOutcome.fail "Error 429 rate limit".data],
      ∃ m, r = ProviderOutcome.fail m ∧ is429 m = true := by
    intro r hr
    simp only [List.mem_singleton] at hr
    exact ⟨"Error 429 rate limit".data, hr, by decide⟩
  refine ⟨?_, ?_, ?_⟩
  · exact (chatFailover_policy [ProviderOutcome.fail "Error 429 rate limit".data] []
      "answer text".data "x".data hpre).1
  · exact (chatFailover_policy [ProviderOutcome.fail "Error 429 rate limit".data]
      [ProviderOutcome.ok "never used".data] "unused".data "ECONNREFUSED".data hpre).2.1
      (by decide)
  · exact (chatFailover_policy [ProviderOutcome.fail "Error 429 rate limit".data] []
      "unused".data "insufficient quota".data hpre).2.2 (by decide)

/-! ### C7: blank query short-circuit -/

/-- C7: a query that trims to the empty string makes `retrieve` return the
empty result at once, with the cache state untouched and an empty provider
trace: neither `getIndex` nor the embedding gateway is invoked. -/
theorem retrieve_blank_query (env : RagEnv) (fuel : Nat) (st : CacheState)
    (query : Str) (topK : Nat) (h : (trimStr query).isEmpty = true) :
    retrieve env fuel st query topK = some ([], st, []) := by
  simp [retrieve, h]

/-- Witness for C7 on a whitespace-only query. -/
theorem retrieve_blank_query_witness :
    retrieve envW 0 stW "  ".data 5 = some ([], stW, []) :=
  retrieve_blank_query envW 0 stW "  ".data 5 (by decide)

/-! ### C10: answer-tag fallback in `parseResponse` -/

/-- C10: when an `<answer>` tag pair is present but its content trims to
the empty string, `parseResponse` falls back to the whole trimmed provider
text, and in general the parsed answer is empty exactly when the whole
provider text trims to empty. -/
theorem parseResponse_answer_fallback (text : Str) :
    (∀ r rr : Str × Str,
      splitFirst ('<' :: "answer".data ++ ">".data) text = some r →
      splitFirst ('<' :: '/' :: "answer".data ++ ">".data) r.2 = some rr →
      trimStr rr.1 = [] →
      (parseResponse text).answer = trimStr text)
    ∧ ((parseResponse text).answer = [] ↔ trimStr text = []) := by
  constructor
  · intro r rr h1 h2 h3
    simp only [parseResponse, extractTag, h1, h2, h3, orStr]
    simp
  · constructor
    · intro h
      simp only [parseResponse, orStr] at h
      split at h
      · exact h
      · rename_i hne
        exact absurd (List.isEmpty_iff.mpr h) hne
    · intro h
      have hext : extractTag "answer".data text = [] := by
        simp only [extractTag]
        cases h1 : splitFirst ('<' :: "answer".data ++ ">".data) text with
        | none => rfl
        | some r =>
          exfalso
          have hdecomp := splitFirst_eq _ _ _ _ h1
          have hws := trimStr_eq_nil_ws text h
          have hmem : '<' ∈ text := by
            rw [hdecomp]
            simp
          have := hws '<' hmem
          simp [Char.isWhitespace] at this
      simp [parseResponse, orStr, hext, h]

/-- Witness for C10: an `<answer>` pair with blank content falls back to
the whole trimmed text. -/
theorem parseResponse_answer_fallback_witness :
    (parseResponse "<answer> </answer> hi".data).answer =
      trimStr "<answer> </answer> hi".data :=
  (parseResponse_answer_fallback "<answer> </answer> hi".data).1
    ([], " </answer> hi".data) (" ".data, " hi".data) (by decide) (by decide) (by decide)

/-! ### C5: index rebuild is idempotent for an unchanged corpus -/

theorem rebuildIndex_shape (env : RagEnv) (fuel : Nat) (dh : Str)
    (r : List IndexedChunk × CacheState × List RagEvent)
    (h : rebuildIndex env fuel dh = some r) :
    r.2.1 = CacheState.mk (some r.1) (some dh) := by
  rcases Option.map_eq_some'.mp h with ⟨chunks, _, hr⟩
  rw [← hr]

/-- C5: after any successful `getIndex` call, a second call on the same
(unchanged) corpus returns the very same index and cache state, touches the
index only through the cache hit, and performs no embedding-provider
request. -/
theorem getIndex_idempotent (env : RagEnv) (fuel fuel2 : Nat) (st : CacheState)
    (idx : List IndexedChunk) (st' : CacheState) (ev : List RagEvent)
    (h : getIndex env fuel st = some (idx, st', ev)) :
    getIndex env fuel2 st' = some (idx, st', [RagEvent.indexAccess]) := by
  have hstate : st'.cachedIndex = some idx ∧
      st'.cachedDocsHash = some (hashDocs env.docs) := by
    simp only [getIndex] at h
    have hrebuild : ∀ hmap : (rebuildIndex env fuel (hashDocs env.docs)).map
        (fun r => (r.1, r.2.1, RagEvent.indexAccess :: r.2.2)) = some (idx, st', ev),
        st'.cachedIndex = some idx ∧ st'.cachedDocsHash = some (hashDocs env.docs) := by
      intro hmap
      rcases Option.map_eq_some'.mp hmap with ⟨r, hr, hmk⟩
      have hsh := rebuildIndex_shape env fuel _ r hr
      injection hmk with ha hb
      injection hb with hb1 hb2
      subst ha
      subst hb1
      rw [hsh]
      exact ⟨rfl, rfl⟩
    split at h
    · rename_i i hc
      split at h
      · rename_i hh
        simp only [Option.some.injEq, Prod.mk.injEq] at h
        obtain ⟨h1, h2, _⟩ := h
        subst h2
        rw [hc, h1]
        exact ⟨rfl, hh⟩
      · exact hrebuild h
    · exact hrebuild h
  obtain ⟨h1, h2⟩ := hstate
  simp [getIndex, h1, h2]

/-- Witness for C5: building the index for a one-document corpus and
calling `getIndex` again returns the identical index with no embedding
request. -/
theorem getIndex_idempotent_witness :
    getIndex envC5 3 stC5 = some (idxC5, stC5, [RagEvent.indexAccess]) :=
  getIndex_idempotent envC5 9 3 (CacheState.mk none none) idxC5 stC5
    [RagEvent.indexAccess, RagEvent.embedRequest ["Hello.".data]] (by rfl)

theorem distLE_trans : ∀ a b c : ScoredChunk, distLE a b → distLE b c → distLE a c := by
  intro a b c
  simp only [distLE, decide_eq_true_eq]
  exact le_trans

theorem distLE_total : ∀ a b : ScoredChunk, distLE a b || distLE b a := by
  intro a b
  simp only [distLE, Bool.or_eq_true, decide_eq_true_eq]
  exact le_total _ _

theorem enumLE_distLE_char (x y : Nat × ScoredChunk)
    (h : List.enumLE distLE x y = true) :
    x.2.distance < y.2.distance ∨ (x.2.distance = y.2.distance ∧ x.1 ≤ y.1) := by
  by_cases h1 : x.2.distance ≤ y.2.distance
  · by_cases h2 : y.2.distance ≤ x.2.distance
    · refine Or.inr ⟨le_antisymm h1 h2, ?_⟩
      simpa [List.enumLE, distLE, h1, h2] using h
    · exact Or.inl (lt_of_le_not_le h1 h2)
  · exfalso
    simp [List.enumLE, distLE, h1] at h

/-- C4: for a non-blank query, `retrieve` returns at most `topK` chunks,
sorted ascending by distance; there is a reordering of the scored index,
sorted by distance with ties broken by original index position, whose
`topK`-prefix is exactly the result; and when every scored distance (in
particular the best one) exceeds `0.8` the result is empty. -/
theorem retrieve_ranking (env : RagEnv) (fuel : Nat) (st : CacheState) (query : Str)
    (topK : Nat) (res : List RetrievedChunk) (st' : CacheState) (ev : List RagEvent)
    (index : List IndexedChunk) (st2 : CacheState) (ev1 : List RagEvent)
    (hq : (trimStr query).isEmpty = false)
    (hidx : getIndex env fuel st = some (index, st2, ev1))
    (h : retrieve env fuel st query topK = some (res, st', ev)) :
    res.Pairwise (fun a b => a.distance ≤ b.distance)
    ∧ res.length ≤ topK
    ∧ ((∀ s ∈ scoreChunks env.sqrt ((embedTexts env [query]).1.getD 0 []) index,
         DISTANCE_THRESHOLD < s.distance) → res = [])
    ∧ ∃ ranked : List (Nat × ScoredChunk),
        ranked.Perm (scoreChunks env.sqrt ((embedTexts env [query]).1.getD 0 []) index).enum
        ∧ ranked.Pairwise (fun a b =>
            a.2.distance < b.2.distance ∨ (a.2.distance = b.2.distance ∧ a.1 ≤ b.1))
        ∧ (res = [] ∨
            res = ((ranked.map (fun p => p.2)).take topK).map
              (fun i => RetrievedChunk.mk i.content i.metadata i.distance)) := by
  have hscored : True := trivial
  simp only [retrieve, hq, Bool.false_eq_true, if_false] at h
  rw [hidx] at h
  simp only [Option.some_bind] at h
  set qe := (embedTexts env [query]).1.getD 0 [] with hqe
  set scored := scoreChunks env.sqrt qe index with hsc
  have hsorted : (scored.mergeSort distLE).Pairwise (fun a b => distLE a b) :=
    List.sorted_mergeSort distLE_trans distLE_total scored
  refine ?_
  set ranked := (scored.enum).mergeSort (List.enumLE distLE) with hrk
  have hperm : ranked.Perm scored.enum := List.mergeSort_perm _ _
  have hpairLex : ranked.Pairwise (fun a b =>
      a.2.distance < b.2.distance ∨ (a.2.distance = b.2.distance ∧ a.1 ≤ b.1)) := by
    have := List.sorted_mergeSort
      (fun a b c => List.enumLE_trans distLE_trans a b c)
      (fun a b => List.enumLE_total distLE_total a b) scored.enum
    exact this.imp (fun hab => enumLE_distLE_char _ _ hab)
  have hsnd : ranked.map (fun p => p.2) = scored.mergeSort distLE := by
    rw [hrk]
    exact List.mergeSort_enum
  split at h
  · rename_i hie
    simp only [Option.some.injEq, Prod.mk.injEq] at h
    obtain ⟨hres, _, _⟩ := h
    subst hres
    exact ⟨by simp, by simp, fun _ => rfl, ranked, hperm, hpairLex, Or.inl rfl⟩
  · rename_i hie
    split at h
    · rename_i htop
      simp only [Option.some.injEq, Prod.mk.injEq] at h
      obtain ⟨hres, _, _⟩ := h
      subst hres
      exact ⟨by simp, by simp, fun _ => rfl, ranked, hperm, hpairLex, Or.inl rfl⟩
    · rename_i t rest2 htop
      split at h
      · simp only [Option.some.injEq, Prod.mk.injEq] at h
        obtain ⟨hres, _, _⟩ := h
        subst hres
        exact ⟨by simp, by simp, fun _ => rfl, ranked, hperm, hpairLex, Or.inl rfl⟩
      · rename_i hthr
        simp only [Option.some.injEq, Prod.mk.injEq] at h
        obtain ⟨hres, _, _⟩ := h
        have hsl : List.Sublist (t :: rest2) (scored.mergeSort distLE) :=
          htop ▸ List.take_sublist _ _
        have hp2 : (t :: rest2).Pairwise (fun a b => distLE a b) :=
          hsorted.sublist hsl
        refine ⟨?_, ?_, ?_, ranked, hperm, hpairLex, Or.inr ?_⟩
        · rw [← hres]
          rw [List.pairwise_map, htop]
          exact hp2.imp (fun hab => by simpa [distLE] using hab)
        · rw [← hres, List.length_map, List.length_take]
          exact min_le_left _ _
        · intro hall
          exfalso
          have hmem : t ∈ scored.mergeSort distLE := by
            have : t ∈ t :: rest2 := by simp
            exact hsl.mem this
          have : t ∈ scored := List.mem_mergeSort.mp hmem
          exact hthr (hall t this)
        · rw [← hres, hsnd, htop]

/-- Witness for C4 on a one-chunk index at distance `0`. -/
theorem retrieve_ranking_witness :
    resW.Pairwise (fun a b => a.distance ≤ b.distance)
    ∧ resW.length ≤ 5
    ∧ ((∀ s ∈ scoreChunks envW.sqrt ((embedTexts envW ["q".data]).1.getD 0 []) idxW1,
         DISTANCE_THRESHOLD < s.distance) → resW = [])
    ∧ ∃ ranked : List (Nat × ScoredChunk),
        ranked.Perm (scoreChunks envW.sqrt ((embedTexts envW ["q".data]).1.getD 0 []) idxW1).enum
        ∧ ranked.Pairwise (fun a b =>
            a.2.distance < b.2.distance ∨ (a.2.distance = b.2.distance ∧ a.1 ≤ b.1))
        ∧ (resW = [] ∨
            resW = ((ranked.map (fun p => p.2)).take 5).map
              (fun i => RetrievedChunk.mk i.content i.metadata i.distance)) := by
  have hdist : (1 : ℚ) - cosineSimilarity envW.sqrt [1] [1] = 0 := by
    norm_num [cosineSimilarity, cosineLoop, List.range_succ, envW]
  have e2 : embedTexts envW ["q".data] = ([[1]], [RagEvent.embedRequest ["q".data]]) := rfl
  have e3 : scoreChunks envW.sqrt [1] idxW1 = scoredW := by
    simp [scoreChunks, idxW1, scoredW, hdist]
  have e4 : List.mergeSort scoredW distLE = scoredW := by
    simp [scoredW]
  have h : retrieve envW 1 stW1 "q".data 5 =
      some (resW, stW1, [RagEvent.indexAccess, RagEvent.embedRequest ["q".data]]) := by
    simp only [retrieve, show (trimStr "q".data).isEmpty = false from rfl,
      Bool.false_eq_true, if_false,
      show getIndex envW 1 stW1 = some (idxW1, stW1, [RagEvent.indexAccess]) from rfl,
      Option.some_bind, show idxW1.isEmpty = false from rfl, e2]
    norm_num [e3, e4, scoredW, resW, DISTANCE_THRESHOLD, metaW]
  exact retrieve_ranking envW 1 stW1 "q".data 5 resW stW1
    [RagEvent.indexAccess, RagEvent.embedRequest ["q".data]]
    idxW1 stW1 [RagEvent.indexAccess] rfl rfl h

/-! ### Bounds on the chunk boundary search -/

theorem lastBoundaryEnd_go_le (s : Str) : ∀ (i j : Nat),
    lastBoundaryEnd.go s i = some j → j ≤ i + s.length := by
  induction s with
  | nil => intro i j h; simp [lastBoundaryEnd.go] at h
  | cons c1 t ih =>
    intro i j h
    cases t with
    | nil => simp [lastBoundaryEnd.go] at h
    | cons c2 rest =>
      simp only [lastBoundaryEnd.go] at h
      cases hg : lastBoundaryEnd.go (c2 :: rest) (i + 1) with
      | some j' =>
        rw [hg] at h
        have hj : j' = j := Option.some.inj h
        have h2 := ih (i + 1) j' hg
        simp only [List.length_cons] at h2 ⊢
        omega
      | none =>
        rw [hg] at h
        by_cases hc : (isSentencePunct c1 && c2.isWhitespace) = true
        · rw [if_pos hc] at h
          have hj : i + 2 = j := Option.some.inj h
          simp only [List.length_cons]
          omega
        · rw [if_neg hc] at h
          exact absurd h (by simp)

theorem lastBoundaryEnd_le (s : Str) (j : Nat) (h : lastBoundaryEnd s = some j) :
    j ≤ s.length := by
  have := lastBoundaryEnd_go_le s 0 j h
  omega

theorem lastSpaceIdx_lt (s : Str) : ∀ j : Nat, lastSpaceIdx s = some j → j < s.length := by
  induction s with
  | nil => intro j h; simp [lastSpaceIdx] at h
  | cons c t ih =>
    intro j h
    simp only [lastSpaceIdx] at h
    cases hg : lastSpaceIdx t with
    | some j' =>
      rw [hg] at h
      have hj : j' + 1 = j := Option.some.inj h
      have h2 := ih j' hg
      simp only [List.length_cons]
      omega
    | none =>
      rw [hg] at h
      by_cases hc : c = ' '
      · rw [if_pos hc] at h
        have hj : (0 : Nat) = j := Option.some.inj h
        simp only [List.length_cons]
        omega
      · rw [if_neg hc] at h
        exact absurd h (by simp)

theorem findSentenceBoundary_le (text : Str) (start e0 : Nat) (h0 : start ≤ e0) :
    findSentenceBoundary text start e0 ≤ e0 := by
  have hwl : (sliceStr text start e0).length ≤ e0 - start := by
    simp only [sliceStr, List.length_take]
    exact min_le_left _ _
  have key : ∀ x : Nat, x < (sliceStr text start e0).length → start + x ≤ e0 := by
    intro x hx
    have h3 : x ≤ e0 - start := le_trans (le_of_lt hx) hwl
    have h4 : start + x ≤ start + (e0 - start) := Nat.add_le_add_left h3 start
    rw [Nat.add_sub_cancel' h0] at h4
    exact h4
  have key2 : ∀ x : Nat, x ≤ (sliceStr text start e0).length → start + x ≤ e0 := by
    intro x hx
    have h3 : x ≤ e0 - start := le_trans hx hwl
    have h4 : start + x ≤ start + (e0 - start) := Nat.add_le_add_left h3 start
    rw [Nat.add_sub_cancel' h0] at h4
    exact h4
  rcases h1 : lastBoundaryEnd (sliceStr text start e0) with _ | lb <;>
    rcases h2 : lastSpaceIdx (sliceStr text start e0) with _ | ls <;>
    simp only [findSentenceBoundary, h1, h2]
  · exact le_refl _
  · split
    · exact key ls (lastSpaceIdx_lt _ ls h2)
    · exact le_refl _
  · split
    · exact key2 lb (lastBoundaryEnd_le _ lb h1)
    · exact le_refl _
  · split
    · exact key2 lb (lastBoundaryEnd_le _ lb h1)
    · split
      · exact key ls (lastSpaceIdx_lt _ ls h2)
      · exact le_refl _

/-! ### C6: every chunk is trimmed, nonempty, and at most 512 characters -/

theorem chunkGo_invariant (text : Str) : ∀ (fuel start : Nat) (acc cs : List Str),
    (∀ c ∈ acc, c ≠ [] ∧ c.length ≤ CHUNK_SIZE ∧ trimStr c = c) →
    chunkGo text fuel start acc = some cs →
    ∀ c ∈ cs, c ≠ [] ∧ c.length ≤ CHUNK_SIZE ∧ trimStr c = c := by
  intro fuel
  induction fuel with
  | zero => intro start acc cs _ h; simp [chunkGo] at h
  | succ n ih =>
    intro start acc cs hacc h
    simp only [chunkGo] at h
    split at h
    · rename_i hs
      generalize hE : (if min (start + CHUNK_SIZE) text.length < text.length then
          findSentenceBoundary text start (min (start + CHUNK_SIZE) text.length)
          else min (start + CHUNK_SIZE) text.length) = E at h
      have hle : E ≤ start + CHUNK_SIZE := by
        rw [← hE]
        split
        · exact le_trans
            (findSentenceBoundary_le text start _
              (le_min (Nat.le_add_right _ _) (le_of_lt hs)))
            (min_le_left _ _)
        · exact min_le_left _ _
      have hchunk : ∀ c ∈ (if (trimStr (sliceStr text start E)).isEmpty then acc
          else acc ++ [trimStr (sliceStr text start E)]),
          c ≠ [] ∧ c.length ≤ CHUNK_SIZE ∧ trimStr c = c := by
        split
        · exact hacc
        · rename_i hne
          intro c hc
          rcases List.mem_append.mp hc with hc | hc
          · exact hacc c hc
          · simp only [List.mem_singleton] at hc
            subst hc
            refine ⟨fun he => hne (by simp [he]), ?_, trimStr_idem _⟩
            calc (trimStr (sliceStr text start E)).length
                ≤ (sliceStr text start E).length := trimStr_length_le _
              _ ≤ E - start := by
                  simp only [sliceStr, List.length_take]
                  exact min_le_left _ _
              _ ≤ CHUNK_SIZE := by omega
      split at h
      · simp only [Option.some.injEq] at h
        subst h
        exact hchunk
      · exact ih _ _ _ hchunk h
    · simp only [Option.some.injEq] at h
      subst h
      exact hacc

/-- C6: every chunk returned by `chunkText` is nonempty, at most
`CHUNK_SIZE = 512` characters long, and fixed by trimming. -/
theorem chunkText_chunks (text : Str) (fuel : Nat) (cs : List Str)
    (h : chunkText text fuel = some cs) :
    ∀ c ∈ cs, c ≠ [] ∧ c.length ≤ CHUNK_SIZE ∧ trimStr c = c := by
  simp only [chunkText] at h
  split at h
  · simp only [Option.some.injEq] at h
    subst h
    intro c hc
    simp at hc
  · exact chunkGo_invariant text fuel 0 [] cs (by simp) h

/-- Witness for C6 on a short two-word body. -/
theorem chunkText_chunks_witness :
    chunkText "Hi there".data 2 = some ["Hi there".data]
    ∧ ("Hi there".data ≠ [] ∧ ("Hi there".data).length ≤ CHUNK_SIZE
        ∧ trimStr "Hi there".data = "Hi there".data) :=
  ⟨rfl, chunkText_chunks "Hi there".data 2 ["Hi there".data] rfl "Hi there".data (by simp)⟩

/-! ### C1: the chunking loop does not terminate on every input -/

set_option maxRecDepth 4000 in
theorem chunkGo_loopText_step (fuel : Nat) (acc : List Str) :
    chunkGo loopText (fuel + 1) 0 acc = chunkGo loopText fuel 0 (acc ++ [loopChunk]) := rfl

theorem chunkGo_loopText_none (fuel : Nat) :
    ∀ acc : List Str, chunkGo loopText fuel 0 acc = none := by
  induction fuel with
  | zero => intro acc; rfl
  | succ n ih =>
    intro acc
    rw [chunkGo_loopText_step]
    exact ih _

/-- C1 is false of the code: on `loopText` the 512-character window has no
qualifying sentence boundary and its last space sits at index 11, so the
window is cut at 11 and the next start is `max(0, 11 - 50) = 0` again; the
loop repeats identically forever and `chunkText` returns for no amount of
fuel. -/
theorem chunkText_loopText_diverges (fuel : Nat) : chunkText loopText fuel = none := by
  simp only [chunkText, show loopText.isEmpty = false from rfl, Bool.false_eq_true,
    if_false]
  exact chunkGo_loopText_none fuel []

/-! ### C2: reconstruction machinery -/

theorem sliceStr_append (text : Str) (a b c : Nat) (hab : a ≤ b) (hbc : b ≤ c) :
    sliceStr text a b ++ sliceStr text b c = sliceStr text a c := by
  simp only [sliceStr]
  rw [show c - a = (b - a) + (c - b) from by omega, List.take_add, List.drop_drop,
    show a + (b - a) = b from by omega]

theorem sliceStr_drop_overlap (text : Str) (q1 q2 prevEnd : Nat) (h1 : q1 ≤ prevEnd) :
    (sliceStr text q1 q2).drop (prevEnd - q1) = sliceStr text prevEnd q2 := by
  simp only [sliceStr, List.drop_take, List.drop_drop]
  rw [show q1 + (prevEnd - q1) = prevEnd from by omega,
    show q2 - q1 - (prevEnd - q1) = q2 - prevEnd from by omega]

theorem reconTail_spec (text : Str) : ∀ (rest : List (Nat × Nat)) (prevEnd L : Nat),
    List.Chain' (fun p q => q.1 = p.2 - CHUNK_OVERLAP) ((0, prevEnd) :: rest) →
    List.Chain' (fun p q => p.2 ≤ q.2) ((0, prevEnd) :: rest) →
    ((0, prevEnd) :: rest).getLast?.map Prod.snd = some L →
    prevEnd ≤ L ∧ reconTail text prevEnd rest = sliceStr text prevEnd L := by
  intro rest
  induction rest with
  | nil =>
    intro prevEnd L _ _ hL
    simp only [List.getLast?_singleton, Option.map_some'] at hL
    have hPL : prevEnd = L := Option.some.inj hL
    subst hPL
    refine ⟨le_refl _, ?_⟩
    simp [reconTail, sliceStr]
  | cons q rest' ih =>
    intro prevEnd L hch hmo hL
    have hq1 : q.1 = prevEnd - CHUNK_OVERLAP := (List.chain'_cons.mp hch).1
    have hmq : prevEnd ≤ q.2 := (List.chain'_cons.mp hmo).1
    have hch2 := (List.chain'_cons.mp hch).2
    have hmo2 := (List.chain'_cons.mp hmo).2
    have hch' : List.Chain' (fun p q => q.1 = p.2 - CHUNK_OVERLAP) ((0, q.2) :: rest') :=
      List.chain'_cons'.mpr ⟨(List.chain'_cons'.mp hch2).1, (List.chain'_cons'.mp hch2).2⟩
    have hmo' : List.Chain' (fun p q => p.2 ≤ q.2) ((0, q.2) :: rest') :=
      List.chain'_cons'.mpr ⟨(List.chain'_cons'.mp hmo2).1, (List.chain'_cons'.mp hmo2).2⟩
    have hL' : ((0, q.2) :: rest').getLast?.map Prod.snd = some L := by
      cases rest' with
      | nil => simpa using hL
      | cons r t => simpa [List.getLast?_cons_cons] using hL
    obtain ⟨hqL, hrec⟩ := ih q.2 L hch' hmo' hL'
    refine ⟨le_trans hmq hqL, ?_⟩
    rw [reconTail]
    rw [sliceStr_drop_overlap text q.1 q.2 prevEnd (by omega), hrec]
    exact sliceStr_append text prevEnd q.2 L hmq hqL

theorem spanGo_shape (text : Str) : ∀ (fuel start : Nat) (acc spans : List (Nat × Nat)),
    spanGo text fuel start acc = some spans →
    ∃ rest, spans = acc ++ rest ∧
      (start < text.length →
        rest.head?.map Prod.fst = some start ∧
        rest.getLast?.map Prod.snd = some text.length ∧
        rest.Chain' (fun p q => q.1 = p.2 - CHUNK_OVERLAP)) ∧
      (¬ start < text.length → rest = []) := by
  intro fuel
  induction fuel with
  | zero => intro start acc spans h; simp [spanGo] at h
  | succ n ih =>
    intro start acc spans h
    simp only [spanGo] at h
    split at h
    · rename_i hs
      generalize hE : (if min (start + CHUNK_SIZE) text.length < text.length then
          findSentenceBoundary text start (min (start + CHUNK_SIZE) text.length)
          else min (start + CHUNK_SIZE) text.length) = E at h
      have hEle : E ≤ text.length := by
        rw [← hE]
        split
        · exact le_trans
            (findSentenceBoundary_le text start _
              (le_min (Nat.le_add_right _ _) (le_of_lt hs)))
            (min_le_right _ _)
        · exact min_le_right _ _
      split at h
      · rename_i hbreak
        have hElen : E = text.length := le_antisymm hEle hbreak
        simp only [Option.some.injEq] at h
        subst h
        refine ⟨[(start, E)], rfl, fun _ => ?_, fun hns => absurd hs hns⟩
        refine ⟨by simp, by simp [hElen], by simp⟩
      · rename_i hcont
        obtain ⟨rest, hspans, hlt, _⟩ := ih (E - CHUNK_OVERLAP) (acc ++ [(start, E)]) spans h
        have hE' : E - CHUNK_OVERLAP < text.length := by omega
        obtain ⟨hhead, hlast, hchain⟩ := hlt hE'
        refine ⟨(start, E) :: rest, by simpa [List.append_assoc] using hspans,
          fun _ => ?_, fun hns => absurd hs hns⟩
        refine ⟨by simp, ?_, ?_⟩
        · cases rest with
          | nil => simp at hhead
          | cons r t => simpa [List.getLast?_cons_cons] using hlast
        · refine List.chain'_cons'.mpr ⟨?_, hchain⟩
          intro b hb
          cases hr : rest.head? with
          | none => rw [hr] at hb; simp at hb
          | some r =>
            rw [hr] at hb
            simp only [Option.mem_def, Option.some.injEq] at hb
            subst hb
            rw [hr] at hhead
            simp only [Option.map_some', Option.some.injEq] at hhead
            exact hhead
    · simp only [Option.some.injEq] at h
      subst h
      rename_i hns
      exact ⟨[], by simp, fun hlt => absurd hlt hns, fun _ => rfl⟩

theorem chunkGo_acc (text : Str) : ∀ (fuel start : Nat) (acc : List Str),
    chunkGo text fuel start acc = (chunkGo text fuel start []).map (acc ++ ·) := by
  intro fuel
  induction fuel with
  | zero => intro start acc; rfl
  | succ n ih =>
    intro start acc
    simp only [chunkGo]
    split
    · rename_i hs
      generalize hE : (if min (start + CHUNK_SIZE) text.length < text.length then
          findSentenceBoundary text start (min (start + CHUNK_SIZE) text.length)
          else min (start + CHUNK_SIZE) text.length) = E
      by_cases hemp : (trimStr (sliceStr text start E)).isEmpty
      · simp only [hemp, if_true]
        split
        · simp
        · rw [ih _ acc]
      · simp only [hemp, Bool.false_eq_true, if_false, List.nil_append]
        split
        · simp
        · rw [ih _ (acc ++ [trimStr (sliceStr text start E)]),
            ih _ [trimStr (sliceStr text start E)], Option.map_map]
          congr 1
          funext l
          simp [Function.comp, List.append_assoc]
    · simp

theorem spanGo_acc (text : Str) : ∀ (fuel start : Nat) (acc : List (Nat × Nat)),
    spanGo text fuel start acc = (spanGo text fuel start []).map (acc ++ ·) := by
  intro fuel
  induction fuel with
  | zero => intro start acc; rfl
  | succ n ih =>
    intro start acc
    simp only [spanGo]
    split
    · rename_i hs
      generalize hE : (if min (start + CHUNK_SIZE) text.length < text.length then
          findSentenceBoundary text start (min (start + CHUNK_SIZE) text.length)
          else min (start + CHUNK_SIZE) text.length) = E
      split
      · simp
      · simp only [List.nil_append]
        rw [ih _ (acc ++ [(start, E)]), ih _ [(start, E)], Option.map_map]
        congr 1
        funext l
        simp [Function.comp, List.append_assoc]
    · simp

theorem chunkGo_eq_spanGo (text : Str) : ∀ (fuel start : Nat),
    chunkGo text fuel start [] = (spanGo text fuel start []).map
      (fun sp => (sp.map (fun p => trimStr (sliceStr text p.1 p.2))).filter
        (fun c => !c.isEmpty)) := by
  intro fuel
  induction fuel with
  | zero => intro start; rfl
  | succ n ih =>
    intro start
    simp only [chunkGo, spanGo]
    split
    · rename_i hs
      generalize hE : (if min (start + CHUNK_SIZE) text.length < text.length then
          findSentenceBoundary text start (min (start + CHUNK_SIZE) text.length)
          else min (start + CHUNK_SIZE) text.length) = E
      split
      · by_cases hemp : (trimStr (sliceStr text start E)).isEmpty
        · simp [hemp, List.filter_cons]
        · simp [hemp, List.filter_cons]
      · simp only [List.nil_append]
        rw [chunkGo_acc text n _ _, spanGo_acc text n _ [(start, E)], ih, Option.map_map,
          Option.map_map]
        congr 1
        funext l
        by_cases hemp : (trimStr (sliceStr text start E)).isEmpty
        · simp [Function.comp, List.filter_cons, hemp]
        · simp [Function.comp, List.filter_cons, hemp]
    · rfl

set_option maxRecDepth 4000 in
/-- C2 as stated is false of the code: on `c2Text` the chunker trims the
window slices, losing the leading space, so removing the 50-character
overlaps does not reconstruct the body. -/
theorem chunkText_overlap_counterexample :
    chunkText c2Text 3 = some c2Chunks
    ∧ specReconstruct c2Chunks ≠ c2Text := by
  refine ⟨rfl, fun h => ?_⟩
  have hlen := congrArg List.length h
  simp [specReconstruct, c2Chunks, c2Text, CHUNK_OVERLAP] at hlen

/-- C2 amended: whenever the chunking loop terminates, the returned chunks
are exactly the trims of the underlying window slices (blank trims
dropped); the windows start at 0, each next window starts `50` characters
(floored at 0) before the previous window's end, and the last window ends
at the end of the body; and when the window ends are nondecreasing,
concatenating the untrimmed slices with the overlapped regions removed
reconstructs the body exactly.  Exact reconstruction from the returned
chunks fails in general because they are trimmed. -/
theorem chunkText_spans (text : Str) (fuel : Nat) (spans : List (Nat × Nat))
    (h : chunkSpans text fuel = some spans) :
    chunkText text fuel =
      some ((spans.map (fun p => trimStr (sliceStr text p.1 p.2))).filter
        (fun c => !c.isEmpty))
    ∧ spans.Chain' (fun p q => q.1 = p.2 - CHUNK_OVERLAP)
    ∧ (text ≠ [] → spans.head?.map Prod.fst = some 0 ∧
        spans.getLast?.map Prod.snd = some text.length)
    ∧ (spans.Chain' (fun p q => p.2 ≤ q.2) → reconSlices text spans = text) := by
  simp only [chunkSpans] at h
  by_cases htext : text.isEmpty
  · rw [if_pos htext] at h
    simp only [Option.some.injEq] at h
    subst h
    have htext' : text = [] := List.isEmpty_iff.mp htext
    refine ⟨by simp [chunkText, htext], by simp, fun hne => absurd htext' hne, ?_⟩
    intro _
    simp [reconSlices, htext']
  · rw [if_neg htext] at h
    have hne : text ≠ [] := fun he => htext (List.isEmpty_iff.mpr he)
    have hpos : 0 < text.length := List.length_pos.mpr hne
    obtain ⟨rest, hspans, hlt, _⟩ := spanGo_shape text fuel 0 [] spans h
    simp only [List.nil_append] at hspans
    subst hspans
    obtain ⟨hhead, hlast, hchain⟩ := hlt hpos
    refine ⟨?_, hchain, fun _ => ⟨hhead, hlast⟩, ?_⟩
    · simp only [chunkText, htext, Bool.false_eq_true, if_false]
      rw [chunkGo_eq_spanGo text fuel 0, h]
      rfl
    · intro hmono
      cases spans with
      | nil => simp at hhead
      | cons p t =>
        have hp1 : p.1 = 0 := by
          simpa using hhead
        have hp : p = (0, p.2) := by
          rw [← hp1]
        rw [hp] at hchain hmono hlast ⊢
        obtain ⟨hL, hrec⟩ := reconTail_spec text t p.2 text.length hchain hmono hlast
        simp only [reconSlices]
        rw [hrec, sliceStr_append text 0 p.2 text.length (Nat.zero_le _) hL]
        simp [sliceStr]

/-- Witness for C2 (amended) on a short two-word body with a single window. -/
theorem chunkText_spans_witness :
    chunkText "Hi there".data 2 =
      some (([((0 : Nat), (8 : Nat))].map
        (fun p => trimStr (sliceStr "Hi there".data p.1 p.2))).filter
        (fun c => !c.isEmpty))
    ∧ [((0 : Nat), (8 : Nat))].Chain' (fun p q => q.1 = p.2 - CHUNK_OVERLAP)
    ∧ ("Hi there".data ≠ [] →
        [((0 : Nat), (8 : Nat))].head?.map Prod.fst = some 0 ∧
        [((0 : Nat), (8 : Nat))].getLast?.map Prod.snd = some "Hi there".data.length)
    ∧ ([((0 : Nat), (8 : Nat))].Chain' (fun p q => p.2 ≤ q.2) →
        reconSlices "Hi there".data [((0 : Nat), (8 : Nat))] = "Hi there".data) :=
  chunkText_spans "Hi there".data 2 [(0, 8)] rfl
